import Mathlib

/-!
# Slicer-Forge core: shallow embedding and verification

This file embeds the geometry core of the Slicer-Forge repository
(`src/utils/nester.ts`, `src/utils/slicer.ts`, `src/utils/modifier.ts`) in
Lean 4 and proves properties of it.

Numbers: the source computes with JavaScript IEEE doubles; the embedding
uses exact rationals (`ℚ`), the standard exact-arithmetic idealization of
the float domain (the spec's §7 declares the documented domain to be
finite floats).  `Number.MAX_VALUE` sentinels become `Option`, and
`Number.isFinite` is identically true on `ℚ`.
-/

namespace Forge

/-- 3D point, mirroring `THREE.Vector3` coordinates. -/
structure Vec3 where
  x : ℚ
  y : ℚ
  z : ℚ
deriving DecidableEq, Repr, Inhabited

/-- `Axis` enum from `types.ts`. -/
inductive Axis
  | x
  | y
  | z
deriving DecidableEq, Repr

/-- Component access `v[axis]` (the source's `getVal`). -/
def Vec3.get (v : Vec3) : Axis → ℚ
  | .x => v.x
  | .y => v.y
  | .z => v.z

/-- `THREE.Vector3.distanceToSquared`. -/
def Vec3.distSq (a b : Vec3) : ℚ :=
  (a.x - b.x) ^ 2 + (a.y - b.y) ^ 2 + (a.z - b.z) ^ 2

/-- `THREE.Vector3.lerpVectors pA pB t = pA + (pB - pA) * t`. -/
def lerpVec (a b : Vec3) (t : ℚ) : Vec3 :=
  ⟨a.x + (b.x - a.x) * t, a.y + (b.y - a.y) * t, a.z + (b.z - a.z) * t⟩

/-- `LineSegment` from `types.ts` (field `end` is `endp` here: `end` is a
Lean keyword). -/
structure LineSegment where
  start : Vec3
  endp : Vec3
deriving DecidableEq, Repr, Inhabited

/-- The `bounds` record stored on a `Slice` in `types.ts`. -/
structure SliceBounds where
  minX : ℚ
  minY : ℚ
  maxX : ℚ
  maxY : ℚ
  width : ℚ
  height : ℚ
deriving DecidableEq, Repr, Inhabited

/-- `Slice` from `types.ts`. -/
structure Slice where
  id : ℚ
  zHeight : ℚ
  segments : List LineSegment
  contours : List (List Vec3)
  bounds : SliceBounds
deriving DecidableEq, Repr, Inhabited

/-- `PlacedSlice` from `types.ts`.  The source spreads the slice's fields
into the record (`{...slice, x, y, rotation, sheetId}`); here the slice is
a component.  The source stores `rotation : number` which is either `0` or
`Math.PI / 2`; the embedding keeps the equivalent Boolean `rotated`
(`true` ↔ rotation = π/2). -/
structure PlacedSlice where
  slice : Slice
  x : ℚ
  y : ℚ
  rotated : Bool
  sheetId : ℕ
deriving DecidableEq, Repr

/-- `Sheet` from `types.ts` (the optional `unplaced` list is never set by
the nester and is omitted). -/
structure Sheet where
  id : ℕ
  width : ℚ
  height : ℚ
  items : List PlacedSlice
deriving DecidableEq, Repr

/-- Packing-internal free rectangle (`Rect` in `nester.ts`). -/
structure Rect where
  x : ℚ
  y : ℚ
  width : ℚ
  height : ℚ
deriving DecidableEq, Repr

/-- Unit field of `MaterialSettings` (`'mm' | 'in'`). -/
inductive LengthUnit
  | mm
  | inch
deriving DecidableEq, Repr

/-- `MaterialSettings` from `types.ts`. -/
structure MaterialSettings where
  width : ℚ
  length : ℚ
  thickness : ℚ
  unit : LengthUnit
deriving DecidableEq, Repr

/-- Nesting strategy argument of `nestSlices`. -/
inductive Strategy
  | optimized
  | sequential
deriving DecidableEq, Repr

/-- `NestResult` from `nester.ts`. -/
structure NestResult where
  sheets : List Sheet
  oversized : List Slice
deriving DecidableEq, Repr

/-- `Bin` state from `nester.ts`. -/
structure Bin where
  sheetId : ℕ
  width : ℚ
  height : ℚ
  freeRects : List Rect
  items : List PlacedSlice
deriving DecidableEq, Repr

/-- One step of the fold inside `Bin.score`: the body of the
`for (const rect of this.freeRects)` loop.  The accumulator is the best
candidate so far; `none` models the initial `Number.MAX_VALUE` sentinel
(no rectangle accepted yet). -/
def scoreStep (w h : ℚ) (best : Option (ℚ × ℚ × Rect)) (rect : Rect) :
    Option (ℚ × ℚ × Rect) :=
  if rect.width ≥ w ∧ rect.height ≥ h then
    let leftoverHoriz := |rect.width - w|
    let leftoverVert := |rect.height - h|
    let shortSideFit := min leftoverHoriz leftoverVert
    let longSideFit := max leftoverHoriz leftoverVert
    match best with
    | none => some (shortSideFit, longSideFit, rect)
    | some (bestScore1, bestScore2, bestRect) =>
      if shortSideFit < bestScore1 ∨
          (shortSideFit = bestScore1 ∧ longSideFit < bestScore2) then
        some (shortSideFit, longSideFit, rect)
      else
        some (bestScore1, bestScore2, bestRect)
  else best

/-- `Bin.score`: best-short-side-fit search over the free rectangles. -/
def Bin.score (bin : Bin) (w h : ℚ) : Option (ℚ × ℚ × Rect) :=
  bin.freeRects.foldl (scoreStep w h) none

/-- The two remainder rectangles produced by `Bin.splitFreeRect` (after
removing the used rectangle): empty on a perfect fit, otherwise `r1`
then `r2` of the chosen split direction, each kept only when it has
positive width and height. -/
def splitPieces (rect : Rect) (w h : ℚ) : List Rect :=
  if w = rect.width ∧ h = rect.height then []
  else if rect.width - w > rect.height - h then
    (if rect.width - w > 0 ∧ rect.height > 0 then
      [Rect.mk (rect.x + w) rect.y (rect.width - w) rect.height] else []) ++
      (if w > 0 ∧ rect.height - h > 0 then
        [Rect.mk rect.x (rect.y + h) w (rect.height - h)] else [])
  else
    (if rect.width > 0 ∧ rect.height - h > 0 then
      [Rect.mk rect.x (rect.y + h) rect.width (rect.height - h)] else []) ++
      (if rect.width - w > 0 ∧ h > 0 then
        [Rect.mk (rect.x + w) rect.y (rect.width - w) h] else [])

/-- `Bin.splitFreeRect` applied to the free-rectangle list: remove the
used rectangle (`indexOf`/`splice`, i.e. first occurrence), then append
the kept remainder pieces in push order. -/
def splitFreeRect (freeRects : List Rect) (rect : Rect) (w h : ℚ) :
    List Rect :=
  freeRects.erase rect ++ splitPieces rect w h

/-- `Bin.insert`: `some` of the updated bin models `return true` plus the
mutation; `none` models `return false`. -/
def Bin.insert (bin : Bin) (slice : Slice) (margin : ℚ) : Option Bin :=
  let w := slice.bounds.width + margin
  let h := slice.bounds.height + margin
  let normalFit := bin.score w h
  let rotatedFit := bin.score h w
  let choice : Option (Bool × Rect) :=
    match normalFit, rotatedFit with
    | some (ns1, ns2, nr), some (rs1, rs2, rr) =>
      if rs1 < ns1 ∨ (rs1 = ns1 ∧ rs2 < ns2) then some (true, rr)
      else some (false, nr)
    | some (_, _, nr), none => some (false, nr)
    | none, some (_, _, rr) => some (true, rr)
    | none, none => none
  match choice with
  | none => none
  | some (useRotated, bestRect) =>
    let placedW := if useRotated then h else w
    let placedH := if useRotated then w else h
    some { bin with
      items := bin.items ++
        [⟨slice, bestRect.x, bestRect.y, useRotated, bin.sheetId⟩],
      freeRects := splitFreeRect bin.freeRects bestRect placedW placedH }

/-- Unit conversion factor (`material.unit === 'in' ? 25.4 : 1`). -/
def scaleFactor : LengthUnit → ℚ
  | .inch => 254 / 10
  | .mm => 1

/-- The validity pre-check of `nestSlices`: the source also tests
`Number.isFinite`, identically true in the exact-rational domain. -/
def validBounds (s : Slice) : Bool :=
  decide (0 < s.bounds.width ∧ 0 < s.bounds.height)

/-- `fitsNormal` check of `nestSlices`. -/
def fitsNormal (s : Slice) (margin sheetWidth sheetHeight : ℚ) : Bool :=
  decide (s.bounds.width + margin ≤ sheetWidth ∧
    s.bounds.height + margin ≤ sheetHeight)

/-- `fitsRotated` check of `nestSlices`. -/
def fitsRotated (s : Slice) (margin sheetWidth sheetHeight : ℚ) : Bool :=
  decide (s.bounds.height + margin ≤ sheetWidth ∧
    s.bounds.width + margin ≤ sheetHeight)

/-- A slice fits the sheet in at least one orientation. -/
def sliceFits (s : Slice) (margin sheetWidth sheetHeight : ℚ) : Bool :=
  fitsNormal s margin sheetWidth sheetHeight ||
    fitsRotated s margin sheetWidth sheetHeight

/-- Strict precedes relation realised by the sort comparator of
`nestSlices`: `sequential` compares `a.id - b.id` (ascending id),
`optimized` compares `areaB - areaA` (descending area). -/
def sortLT (strategy : Strategy) (a b : Slice) : Bool :=
  match strategy with
  | .sequential => decide (a.id < b.id)
  | .optimized =>
    decide (b.bounds.width * b.bounds.height <
      a.bounds.width * a.bounds.height)

/-- Insert into a sorted list, after every element that strictly
precedes `x`. -/
def sortedInsert (lt : α → α → Bool) (x : α) : List α → List α
  | [] => [x]
  | y :: ys => if lt y x then y :: sortedInsert lt x ys else x :: y :: ys

/-- Stable sort by the comparator-induced strict order; ECMAScript's
`Array.prototype.sort` is specified stable, and a stable sort consistent
with a total preorder comparator is unique, so this is the list the
source computes. -/
def stableSort (lt : α → α → Bool) : List α → List α
  | [] => []
  | x :: xs => sortedInsert lt x (stableSort lt xs)

/-- Mutable state of the packing loop of `nestSlices`: the bin array and
the slices pushed onto `oversized` during packing (the "Logic Error"
branch). -/
structure PackState where
  bins : List Bin
  oversized : List Slice
deriving Repr

/-- First-fit pass `for (const bin of bins)` of the packing loop: `some`
returns the bin list with the accepting bin replaced by its updated
state. -/
def tryBins (margin : ℚ) (slice : Slice) : List Bin → Option (List Bin)
  | [] => none
  | b :: rest =>
    match b.insert slice margin with
    | some b' => some (b' :: rest)
    | none => (tryBins margin slice rest).map (b :: ·)

/-- Body of `sortedSlices.forEach` in `nestSlices`: try existing bins;
otherwise create a bin (pushed to the array before the insert attempt, so
it remains even if the insert fails) and fall back to `oversized` on the
contract-violation path. -/
def packStep (sheetWidth sheetHeight margin : ℚ) (st : PackState)
    (slice : Slice) : PackState :=
  match tryBins margin slice st.bins with
  | some bins' => { st with bins := bins' }
  | none =>
    let newBin : Bin :=
      ⟨st.bins.length, sheetWidth, sheetHeight,
        [⟨0, 0, sheetWidth, sheetHeight⟩], []⟩
    match newBin.insert slice margin with
    | some b => { st with bins := st.bins ++ [b] }
    | none =>
      { bins := st.bins ++ [newBin], oversized := st.oversized ++ [slice] }

/-- `nestSlices` from `nester.ts`.  The `forEach` partition into
`oversized` / `fittableSlices` is rendered as two order-preserving
filters; the output `oversized` array holds the pre-check entries first,
then any packing-phase entries, exactly as the pushes happen in the
source. -/
def nestSlices (slices : List Slice) (material : MaterialSettings)
    (strategy : Strategy) : NestResult :=
  let scale := scaleFactor material.unit
  let sheetWidth := material.width * scale
  let sheetHeight := material.length * scale
  let margin : ℚ := 5
  let oversizedPre := slices.filter fun s =>
    validBounds s && !sliceFits s margin sheetWidth sheetHeight
  let fittableSlices := slices.filter fun s =>
    validBounds s && sliceFits s margin sheetWidth sheetHeight
  let sortedSlices := stableSort (sortLT strategy) fittableSlices
  let final := sortedSlices.foldl
    (packStep sheetWidth sheetHeight margin) ⟨[], []⟩
  { sheets := final.bins.map fun b => ⟨b.sheetId, b.width, b.height, b.items⟩,
    oversized := oversizedPre ++ final.oversized }

/-! ## MeshSlicer and ContourLinker (`src/utils/slicer.ts`) -/

/-- The slicer's absolute epsilon `1e-5`. -/
def EPSILON : ℚ := 1 / 100000

/-- 2D projection used for bounds (`get2D` in `slicer.ts`). -/
def get2D (axis : Axis) (v : Vec3) : ℚ × ℚ :=
  match axis with
  | .z => (v.x, v.y)
  | .y => (v.x, v.z)
  | .x => (v.y, v.z)

/-- Deduplication of candidate intersection points within one triangle
(`uniquePoints` accumulation). -/
def dedupPoints (eps : ℚ) (pts : List Vec3) : List Vec3 :=
  pts.foldl
    (fun acc p =>
      if acc.any fun q => decide (q.distSq p < eps * eps) then acc
      else acc ++ [p])
    []

/-- Plane/triangle intersection for one triangle at one plane level: the
body of the `for (let j ...)` loop of `sliceGeometry`.  Produces the
output segment exactly when two unique points survive. -/
def sliceTriangle (axis : Axis) (planeLevel eps : ℚ) (v1 v2 v3 : Vec3) :
    Option LineSegment :=
  let d1 := v1.get axis - planeLevel
  let d2 := v2.get axis - planeLevel
  let d3 := v3.get axis - planeLevel
  if (d1 > eps ∧ d2 > eps ∧ d3 > eps) ∨
      (d1 < -eps ∧ d2 < -eps ∧ d3 < -eps) then none
  else
    let points := [v1, v2, v3]
    let dists := [d1, d2, d3]
    let crossings := (List.range 3).filterMap fun k =>
      let pA := points.getD k default
      let pB := points.getD ((k + 1) % 3) default
      let dA := dists.getD k 0
      let dB := dists.getD ((k + 1) % 3) 0
      if (dA > 0 ∧ dB < 0) ∨ (dA < 0 ∧ dB > 0) then
        some (lerpVec pA pB (dA / (dA - dB)))
      else none
    let onPlane :=
      (if |d1| < eps then [v1] else []) ++
        (if |d2| < eps then [v2] else []) ++
        (if |d3| < eps then [v3] else [])
    match dedupPoints eps (crossings ++ onPlane) with
    | [p, q] => some ⟨p, q⟩
    | _ => none

/-- Group a flat vertex buffer into triangles (`j += 3` iteration); an
incomplete trailing group is never read by the loop bound. -/
def triples : List Vec3 → List (Vec3 × Vec3 × Vec3)
  | a :: b :: c :: rest => (a, b, c) :: triples rest
  | _ => []

/-- Minimum of the axis coordinate over the vertex buffer
(`box.min[axis]`); `0` for the empty buffer, where the caller's
`range ≤ 0` guard discards the result just as it does for the empty
`THREE.Box3`. -/
def axisMin (axis : Axis) : List Vec3 → ℚ
  | [] => 0
  | v :: vs => vs.foldl (fun m u => min m (u.get axis)) (v.get axis)

/-- Maximum of the axis coordinate over the vertex buffer
(`box.max[axis]`). -/
def axisMax (axis : Axis) : List Vec3 → ℚ
  | [] => 0
  | v :: vs => vs.foldl (fun m u => max m (u.get axis)) (v.get axis)

/-- Per-level 2D bounds over all segment endpoints.  The source folds
from `±Infinity`; for the non-empty lists on which it is used this equals
folding from the first point (the `[]` case below is dead code guarded by
`segments.length > 0`). -/
def computeBounds (axis : Axis) (segs : List LineSegment) : SliceBounds :=
  match segs with
  | [] => ⟨0, 0, 0, 0, 0, 0⟩
  | s0 :: _ =>
    let pts := segs.flatMap fun s => [get2D axis s.start, get2D axis s.endp]
    let seed := get2D axis s0.start
    let minX := pts.foldl (fun m p => min m p.1) seed.1
    let minY := pts.foldl (fun m p => min m p.2) seed.2
    let maxX := pts.foldl (fun m p => max m p.1) seed.1
    let maxY := pts.foldl (fun m p => max m p.2) seed.2
    ⟨minX, minY, maxX, maxY, maxX - minX, maxY - minY⟩

/-- JavaScript `Math.round`: round half toward `+∞`. -/
def roundJS (q : ℚ) : ℤ := ⌊q + 1 / 2⌋

/-- Spatial-hash key of a point (`hash` in `linkSegments`): the source
joins the three rounded integers into a string, which is in bijection
with the integer triple used here. -/
def hashPt (eps : ℚ) (v : Vec3) : ℤ × ℤ × ℤ :=
  (roundJS (v.x / eps), roundJS (v.y / eps), roundJS (v.z / eps))

/-- Adjacency map from hash key to segment indices in push order
(a `Map<string, number[]>` in the source; association list here). -/
abbrev AdjMap := List ((ℤ × ℤ × ℤ) × List ℕ)

/-- Append an index to the list stored under a key. -/
def mapAdd (m : AdjMap) (k : ℤ × ℤ × ℤ) (idx : ℕ) : AdjMap :=
  match m with
  | [] => [(k, [idx])]
  | (k', l) :: rest =>
    if k' = k then (k', l ++ [idx]) :: rest else (k', l) :: mapAdd rest k idx

/-- Lookup (`map.get`). -/
def mapGet (m : AdjMap) (k : ℤ × ℤ × ℤ) : Option (List ℕ) :=
  match m with
  | [] => none
  | (k', l) :: rest => if k' = k then some l else mapGet rest k

/-- Build the adjacency map: for each segment in index order register its
start hash then its end hash. -/
def buildAdjacency (eps : ℚ) (segments : List LineSegment) : AdjMap :=
  segments.enum.foldl
    (fun m p =>
      let m1 := mapAdd m (hashPt eps p.2.start) p.1
      mapAdd m1 (hashPt eps p.2.endp) p.1)
    []

/-- The candidate scan inside the `while (finding)` loop: first unused
candidate index whose start (preferred) or end lies within `eps²` of the
trailing point; returns that index and the far endpoint. -/
def findNext (segments : List LineSegment) (used : List ℕ) (eps : ℚ)
    (currentPoint : Vec3) : List ℕ → Option (ℕ × Vec3)
  | [] => none
  | candIdx :: rest =>
    if candIdx ∈ used then findNext segments used eps currentPoint rest
    else
      let candSeg := segments.getD candIdx default
      let distStart := candSeg.start.distSq currentPoint
      let distEnd := candSeg.endp.distSq currentPoint
      if distStart < eps * eps then some (candIdx, candSeg.endp)
      else if distEnd < eps * eps then some (candIdx, candSeg.start)
      else findNext segments used eps currentPoint rest

/-- The `while (finding)` loop of `linkSegments`: extend the contour from
the trailing point until no unused neighbour exists or the trailing point
returns within `eps` of the first point.  Note the source appends the far
endpoint *before* the closed-loop test, so a closing step does append the
duplicate point.  Each iteration that recurses marks one more segment
used, so `segments.length + 1` fuel at the call site is never
exhausted. -/
def growContour (segments : List LineSegment) (adj : AdjMap) (eps : ℚ) :
    ℕ → List Vec3 → Vec3 → Vec3 → List ℕ → List Vec3 × List ℕ
  | 0, contour, _, _, used => (contour, used)
  | fuel + 1, contour, firstPoint, currentPoint, used =>
    match mapGet adj (hashPt eps currentPoint) with
    | none => (contour, used)
    | some candidates =>
      match findNext segments used eps currentPoint candidates with
      | none => (contour, used)
      | some (idx, nextPoint) =>
        let contour' := contour ++ [nextPoint]
        let used' := used ++ [idx]
        if nextPoint.distSq firstPoint < eps * eps then (contour', used')
        else growContour segments adj eps fuel contour' firstPoint nextPoint used'

/-- `linkSegments` from `slicer.ts`. -/
def linkSegments (segments : List LineSegment) (eps : ℚ) :
    List (List Vec3) :=
  let adj := buildAdjacency eps segments
  let final := (List.range segments.length).foldl
    (fun (st : List (List Vec3) × List ℕ) i =>
      if i ∈ st.2 then st
      else
        let seg := segments.getD i default
        let (contour, used') :=
          growContour segments adj eps (segments.length + 1)
            [seg.start, seg.endp] seg.start seg.endp (st.2 ++ [i])
        (st.1 ++ [contour], used'))
    ([], [])
  final.1

/-- Body of the `for (let i = 1; i <= numberOfSlices; i++)` loop of
`sliceGeometry`, at loop variable `i + 1`: the slice at plane level
`mn + (i+1)·step`, or `none` when the level produces no segment (the
source only pushes when `segments.length > 0`). -/
def sliceAtLevel (tris : List (Vec3 × Vec3 × Vec3)) (axis : Axis)
    (mn step : ℚ) (i : ℕ) : Option Slice :=
  let planeLevel := mn + ((i : ℚ) + 1) * step
  let segments := tris.filterMap fun t =>
    sliceTriangle axis planeLevel EPSILON t.1 t.2.1 t.2.2
  if segments.isEmpty then none
  else
    some
      { id := (i : ℚ) + 1
        zHeight := planeLevel
        segments := segments
        contours := linkSegments segments EPSILON
        bounds := computeBounds axis segments }

/-- `sliceGeometry` from `slicer.ts` over a flat vertex buffer.  The
count parameter is an integer so that the source's `numberOfSlices <= 0`
guard covers negative requests; the progress callback is a side effect
with no influence on the result and is omitted. -/
def sliceGeometry (positions : List Vec3) (axis : Axis)
    (numberOfSlices : ℤ) : List Slice :=
  let mn := axisMin axis positions
  let mx := axisMax axis positions
  let range := mx - mn
  if range ≤ 0 ∨ numberOfSlices ≤ 0 then []
  else
    let step := range / ((numberOfSlices : ℚ) + 1)
    (List.range numberOfSlices.toNat).filterMap
      (sliceAtLevel (triples positions) axis mn step)

/-! ## SliceSplitter axis/position selection (`src/utils/modifier.ts`) -/

/-- Local split dimension inside `splitSlice` (`'u' | 'v'`). -/
inductive SplitAxis
  | u
  | v
deriving DecidableEq, Repr

/-- The axis/position selection step at the top of `splitSlice`
(`splitAxis` / `splitPos`): width is tested against its limit first, then
height, then the longer local dimension; the position is the midpoint of
the chosen dimension. -/
def splitChoice (bounds : SliceBounds) (maxW maxH : ℚ) : SplitAxis × ℚ :=
  if bounds.width > maxW then (.u, bounds.minX + bounds.width / 2)
  else if bounds.height > maxH then (.v, bounds.minY + bounds.height / 2)
  else if bounds.width > bounds.height then
    (.u, bounds.minX + bounds.width / 2)
  else (.v, bounds.minY + bounds.height / 2)

/-! ## Derived geometric notions used to state the packing invariants -/

/-- The interiors of two axis-aligned rectangles intersect. -/
def Rect.overlaps (a b : Rect) : Prop :=
  a.x < b.x + b.width ∧ b.x < a.x + a.width ∧
    a.y < b.y + b.height ∧ b.y < a.y + a.height

/-- Interior-disjointness of two axis-aligned rectangles. -/
def Rect.disjoint (a b : Rect) : Prop := ¬a.overlaps b

/-- `a` is contained in `b`. -/
def Rect.inside (a b : Rect) : Prop :=
  b.x ≤ a.x ∧ b.y ≤ a.y ∧ a.x + a.width ≤ b.x + b.width ∧
    a.y + a.height ≤ b.y + b.height

/-- The margin-inflated rectangle occupied by a placed slice: the block
the nester carves out of a free rectangle for it (`placedW × placedH` at
the placement origin, sides swapped when rotated). -/
def placedRect (margin : ℚ) (p : PlacedSlice) : Rect :=
  if p.rotated then
    ⟨p.x, p.y, p.slice.bounds.height + margin, p.slice.bounds.width + margin⟩
  else
    ⟨p.x, p.y, p.slice.bounds.width + margin, p.slice.bounds.height + margin⟩

/-- All rectangles tracked by a bin: the free rectangles plus the blocks
of the placed items. -/
def Bin.allRects (margin : ℚ) (b : Bin) : List Rect :=
  b.freeRects ++ b.items.map (placedRect margin)

/-- Packing invariant of a bin: every tracked rectangle lies within the
sheet and the tracked rectangles are pairwise interior-disjoint. -/
def Bin.Wf (margin : ℚ) (b : Bin) : Prop :=
  (∀ q ∈ b.allRects margin, q.inside ⟨0, 0, b.width, b.height⟩) ∧
    (b.allRects margin).Pairwise Rect.disjoint

/-- The underlying slices of all items placed in a list of bins. -/
def binsSlices : List Bin → List Slice
  | [] => []
  | b :: rest => b.items.map (·.slice) ++ binsSlices rest

/-- The underlying slices of all items placed on a list of sheets. -/
def sheetsSlices : List Sheet → List Slice
  | [] => []
  | sh :: rest => sh.items.map (·.slice) ++ sheetsSlices rest

/-! ## Concrete inputs used by the tests below -/

/-- A 100×100×100 axis-aligned cube as a triangle soup: each face split
into two triangles, 36 vertices. -/
def cubePositions : List Vec3 :=
  [⟨0,0,0⟩, ⟨100,0,0⟩, ⟨100,100,0⟩,  ⟨0,0,0⟩, ⟨100,100,0⟩, ⟨0,100,0⟩,
   ⟨0,0,100⟩, ⟨100,100,100⟩, ⟨100,0,100⟩,  ⟨0,0,100⟩, ⟨0,100,100⟩, ⟨100,100,100⟩,
   ⟨0,0,0⟩, ⟨0,100,0⟩, ⟨0,100,100⟩,  ⟨0,0,0⟩, ⟨0,100,100⟩, ⟨0,0,100⟩,
   ⟨100,0,0⟩, ⟨100,100,100⟩, ⟨100,100,0⟩,  ⟨100,0,0⟩, ⟨100,0,100⟩, ⟨100,100,100⟩,
   ⟨0,0,0⟩, ⟨100,0,100⟩, ⟨100,0,0⟩,  ⟨0,0,0⟩, ⟨0,0,100⟩, ⟨100,0,100⟩,
   ⟨0,100,0⟩, ⟨100,100,0⟩, ⟨100,100,100⟩,  ⟨0,100,0⟩, ⟨100,100,100⟩, ⟨0,100,100⟩]

/-- Whether a point lies on the perimeter of the square
`[0,100] × [0,100]` at height `z0` (slicing axis `z`). -/
def onCubePerimeter (z0 : ℚ) (p : Vec3) : Bool :=
  decide (p.z = z0 ∧
    (((p.x = 0 ∨ p.x = 100) ∧ 0 ≤ p.y ∧ p.y ≤ 100) ∨
      ((p.y = 0 ∨ p.y = 100) ∧ 0 ≤ p.x ∧ p.x ≤ 100)))

/-- A slice whose 2D bounds are a 50×50 square (for the nesting test). -/
def squareSlice (n : ℚ) : Slice :=
  { id := n, zHeight := 0, segments := [], contours := [],
    bounds := ⟨0, 0, 50, 50, 50, 50⟩ }

end Forge

namespace Forge

/-! ## Helper lemmas -/

lemma sliceAtLevel_some {tris : List (Vec3 × Vec3 × Vec3)} {axis : Axis}
    {mn step : ℚ} {i : ℕ} {s : Slice}
    (h : sliceAtLevel tris axis mn step i = some s) :
    s.zHeight = mn + ((i : ℚ) + 1) * step ∧ s.segments ≠ [] := by
  simp only [sliceAtLevel] at h
  split at h
  · exact absurd h (by simp)
  · rw [Option.some.injEq] at h
    subst h
    refine ⟨rfl, ?_⟩
    simp only [List.isEmpty_eq_true] at *
    assumption

lemma Rect.disjoint_symm {a b : Rect} (h : a.disjoint b) : b.disjoint a := by
  unfold Rect.disjoint Rect.overlaps at *
  tauto

lemma Rect.disjoint_symmetric : Symmetric Rect.disjoint :=
  fun _ _ h => Rect.disjoint_symm h

lemma Rect.disjoint_of_inside {a r c : Rect} (ha : a.inside r)
    (h : r.disjoint c) : a.disjoint c := by
  unfold Rect.disjoint Rect.overlaps at *
  unfold Rect.inside at ha
  intro hov
  exact h ⟨by linarith, by linarith, by linarith, by linarith⟩

lemma Rect.inside_trans {a b c : Rect} (hab : a.inside b) (hbc : b.inside c) :
    a.inside c := by
  unfold Rect.inside at *
  exact ⟨by linarith, by linarith, by linarith, by linarith⟩

lemma Rect.inside_refl (a : Rect) : a.inside a := by
  unfold Rect.inside
  exact ⟨le_refl _, le_refl _, le_refl _, le_refl _⟩

/-- In a pairwise-`R` list with `R` symmetric, the element removed by
`erase` is related to everything that remains. -/
lemma pairwise_rel_erase {α : Type} [DecidableEq α] {R : α → α → Prop}
    (hsym : ∀ x y, R x y → R y x) :
    ∀ (l : List α) (a : α), l.Pairwise R → a ∈ l → ∀ b ∈ l.erase a, R a b := by
  intro l
  induction l with
  | nil => intro a _ ha; cases ha
  | cons x xs ih =>
    intro a hp ha b hb
    rw [List.pairwise_cons] at hp
    by_cases hax : x = a
    · subst hax
      rw [List.erase_cons_head] at hb
      exact hp.1 b hb
    · rw [List.erase_cons_tail (by simp [hax])] at hb
      rcases List.mem_cons.mp hb with hbx | hb'
      · subst hbx
        have hams : a ∈ xs := by
          rcases List.mem_cons.mp ha with h | h
          · exact absurd h.symm hax
          · exact h
        exact hsym _ _ (hp.1 a hams)
      · have hams : a ∈ xs := by
          rcases List.mem_cons.mp ha with h | h
          · exact absurd h.symm hax
          · exact h
        exact ih a hp.2 hams b hb'

lemma scoreStep_some_prop {w h : ℚ} {P : Rect → Prop}
    {best : Option (ℚ × ℚ × Rect)} {rect : Rect}
    (hbest : ∀ s1 s2 r, best = some (s1, s2, r) → P r)
    (hrect : w ≤ rect.width → h ≤ rect.height → P rect) :
    ∀ s1 s2 r, scoreStep w h best rect = some (s1, s2, r) → P r := by
  intro s1 s2 r hr
  cases best with
  | none =>
    simp only [scoreStep] at hr
    split at hr
    · rename_i hfits
      simp only [Option.some.injEq, Prod.mk.injEq] at hr
      rw [← hr.2.2]
      exact hrect hfits.1 hfits.2
    · simp at hr
  | some tpl =>
    obtain ⟨b1, b2, br⟩ := tpl
    simp only [scoreStep] at hr
    split at hr
    · rename_i hfits
      split at hr <;> simp only [Option.some.injEq, Prod.mk.injEq] at hr
      · rw [← hr.2.2]
        exact hrect hfits.1 hfits.2
      · rw [← hr.2.2]
        exact hbest b1 b2 br rfl
    · exact hbest s1 s2 r hr

lemma scoreFold_some_prop {w h : ℚ} {P : Rect → Prop} :
    ∀ (l : List Rect) (best : Option (ℚ × ℚ × Rect)),
      (∀ s1 s2 r, best = some (s1, s2, r) → P r) →
      (∀ r ∈ l, w ≤ r.width → h ≤ r.height → P r) →
      ∀ s1 s2 r, l.foldl (scoreStep w h) best = some (s1, s2, r) → P r := by
  intro l
  induction l with
  | nil => intro best hbest _ s1 s2 r hr; exact hbest s1 s2 r hr
  | cons x xs ih =>
    intro best hbest hl s1 s2 r hr
    refine ih (scoreStep w h best x) ?_ ?_ s1 s2 r hr
    · exact scoreStep_some_prop hbest (hl x (List.mem_cons_self x xs))
    · intro q hq hqw hqh
      exact hl q (List.mem_cons_of_mem x hq) hqw hqh

lemma Bin.score_some {bin : Bin} {w h s1 s2 : ℚ} {r : Rect}
    (hs : bin.score w h = some (s1, s2, r)) :
    r ∈ bin.freeRects ∧ w ≤ r.width ∧ h ≤ r.height := by
  refine scoreFold_some_prop
    (P := fun q => q ∈ bin.freeRects ∧ w ≤ q.width ∧ h ≤ q.height)
    bin.freeRects none (by intro _ _ _ h'; cases h') ?_ s1 s2 r hs
  intro q hq hqw hqh
  exact ⟨hq, hqw, hqh⟩

lemma mem_splitPieces {rect : Rect} {w h : ℚ} {q : Rect}
    (hq : q ∈ splitPieces rect w h) :
    q = ⟨rect.x + w, rect.y, rect.width - w, rect.height⟩ ∨
    q = ⟨rect.x, rect.y + h, w, rect.height - h⟩ ∨
    q = ⟨rect.x, rect.y + h, rect.width, rect.height - h⟩ ∨
    q = ⟨rect.x + w, rect.y, rect.width - w, h⟩ := by
  unfold splitPieces at hq
  split at hq
  · simp at hq
  · split at hq <;> rw [List.mem_append] at hq <;>
      rcases hq with hq | hq <;> split at hq <;> simp at hq <;> tauto

lemma splitPieces_inside {rect : Rect} {w h : ℚ}
    (h0w : 0 ≤ w) (h0h : 0 ≤ h) (hw : w ≤ rect.width)
    (hh : h ≤ rect.height) :
    ∀ q ∈ splitPieces rect w h, q.inside rect := by
  intro q hq
  rcases mem_splitPieces hq with hq | hq | hq | hq <;> subst hq <;>
    unfold Rect.inside <;> dsimp only <;>
    exact ⟨by linarith, by linarith, by linarith, by linarith⟩

lemma splitPieces_disjoint_placed {rect : Rect} {w h : ℚ} :
    ∀ q ∈ splitPieces rect w h,
      q.disjoint ⟨rect.x, rect.y, w, h⟩ := by
  intro q hq
  rcases mem_splitPieces hq with hq | hq | hq | hq <;> subst hq <;>
    unfold Rect.disjoint Rect.overlaps <;> dsimp only <;>
    · intro hov
      obtain ⟨h1, h2, h3, h4⟩ := hov
      linarith

lemma rect_disjoint_split1 (rect : Rect) (w h : ℚ) :
    Rect.disjoint ⟨rect.x + w, rect.y, rect.width - w, rect.height⟩
      ⟨rect.x, rect.y + h, w, rect.height - h⟩ := by
  unfold Rect.disjoint Rect.overlaps
  dsimp only
  intro hov
  obtain ⟨h1, _, _, _⟩ := hov
  linarith

lemma rect_disjoint_split2 (rect : Rect) (w h : ℚ) :
    Rect.disjoint ⟨rect.x, rect.y + h, rect.width, rect.height - h⟩
      ⟨rect.x + w, rect.y, rect.width - w, h⟩ := by
  unfold Rect.disjoint Rect.overlaps
  dsimp only
  intro hov
  obtain ⟨_, _, h3, _⟩ := hov
  linarith

lemma splitPieces_pairwise (rect : Rect) (w h : ℚ) :
    (splitPieces rect w h).Pairwise Rect.disjoint := by
  unfold splitPieces
  split
  · exact List.Pairwise.nil
  · split <;> refine List.pairwise_append.mpr ⟨?_, ?_, ?_⟩
    · split
      · exact List.pairwise_singleton _ _
      · exact List.Pairwise.nil
    · split
      · exact List.pairwise_singleton _ _
      · exact List.Pairwise.nil
    · intro a ha b hb
      split at ha
      · split at hb
        · rw [List.mem_singleton] at ha hb
          subst ha
          subst hb
          exact rect_disjoint_split1 rect w h
        · simp at hb
      · simp at ha
    · split
      · exact List.pairwise_singleton _ _
      · exact List.Pairwise.nil
    · split
      · exact List.pairwise_singleton _ _
      · exact List.Pairwise.nil
    · intro a ha b hb
      split at ha
      · split at hb
        · rw [List.mem_singleton] at ha hb
          subst ha
          subst hb
          exact rect_disjoint_split2 rect w h
        · simp at hb
      · simp at ha

lemma placed_block_inside {r : Rect} {pw ph : ℚ}
    (hw : pw ≤ r.width) (hh : ph ≤ r.height) :
    (Rect.mk r.x r.y pw ph).inside r := by
  unfold Rect.inside
  dsimp only
  exact ⟨le_refl _, le_refl _, by linarith, by linarith⟩

/-- Core invariant-preservation step of `Bin.insert`: carving the placed
block out of the chosen free rectangle keeps every tracked rectangle
inside the sheet and pairwise interior-disjoint. -/
lemma wf_update {free itemsR : List Rect} {sheet r : Rect} {pw ph : ℚ}
    (hr : r ∈ free) (h0w : 0 ≤ pw) (h0h : 0 ≤ ph)
    (hw : pw ≤ r.width) (hh : ph ≤ r.height)
    (hin : ∀ q ∈ free ++ itemsR, q.inside sheet)
    (hpair : (free ++ itemsR).Pairwise Rect.disjoint) :
    (∀ q ∈ splitFreeRect free r pw ph ++ (itemsR ++ [Rect.mk r.x r.y pw ph]),
        q.inside sheet) ∧
    (splitFreeRect free r pw ph ++
        (itemsR ++ [Rect.mk r.x r.y pw ph])).Pairwise Rect.disjoint := by
  have hrin : r.inside sheet := hin r (List.mem_append_left _ hr)
  have hpin : (Rect.mk r.x r.y pw ph).inside r := placed_block_inside hw hh
  have hold : ∀ a ∈ free.erase r ++ itemsR, Rect.disjoint r a := by
    intro a ha
    have ha' : a ∈ (free ++ itemsR).erase r := by
      rw [List.erase_append_left itemsR hr]
      exact ha
    exact pairwise_rel_erase (fun x y hxy => Rect.disjoint_symm hxy)
      (free ++ itemsR) r hpair (List.mem_append_left _ hr) a ha'
  constructor
  · intro q hq
    rw [splitFreeRect, List.append_assoc] at hq
    rcases List.mem_append.mp hq with hq | hq
    · exact hin q (List.mem_append_left _ (List.mem_of_mem_erase hq))
    · rcases List.mem_append.mp hq with hq | hq
      · exact Rect.inside_trans
          (splitPieces_inside h0w h0h hw hh q hq) hrin
      · rcases List.mem_append.mp hq with hq | hq
        · exact hin q (List.mem_append_right _ hq)
        · rw [List.mem_singleton] at hq
          subst hq
          exact Rect.inside_trans hpin hrin
  · have h1 : splitFreeRect free r pw ph ++
        (itemsR ++ [Rect.mk r.x r.y pw ph]) =
        free.erase r ++ ((splitPieces r pw ph ++ itemsR) ++
          [Rect.mk r.x r.y pw ph]) := by
      rw [splitFreeRect]
      simp [List.append_assoc]
    have h2 : (free.erase r ++ itemsR) ++
        (splitPieces r pw ph ++ [Rect.mk r.x r.y pw ph]) =
        free.erase r ++ ((itemsR ++ splitPieces r pw ph) ++
          [Rect.mk r.x r.y pw ph]) := by
      simp [List.append_assoc]
    have hperm : ((free.erase r ++ itemsR) ++
        (splitPieces r pw ph ++ [Rect.mk r.x r.y pw ph])).Perm
        (splitFreeRect free r pw ph ++
          (itemsR ++ [Rect.mk r.x r.y pw ph])) := by
      rw [h1, h2]
      exact List.Perm.append_left _
        (List.Perm.append_right _ List.perm_append_comm)
    refine List.Pairwise.perm ?_ hperm fun hxy => Rect.disjoint_symm hxy
    rw [List.pairwise_append]
    refine ⟨?_, ?_, ?_⟩
    · exact hpair.sublist
        ((List.erase_sublist r free).append_right itemsR)
    · rw [List.pairwise_append]
      refine ⟨splitPieces_pairwise r pw ph,
        List.pairwise_singleton _ _, ?_⟩
      intro a ha b hb
      rw [List.mem_singleton] at hb
      subst hb
      exact splitPieces_disjoint_placed a ha
    · intro a ha b hb
      have hbin : b.inside r := by
        rcases List.mem_append.mp hb with hb | hb
        · exact splitPieces_inside h0w h0h hw hh b hb
        · rw [List.mem_singleton] at hb
          subst hb
          exact hpin
      exact Rect.disjoint_symm
        (Rect.disjoint_of_inside hbin (hold a ha))

/-- Inversion of a successful `Bin.insert`: the source placed the item at
the origin of a free rectangle that accommodates the (possibly swapped)
margin-inflated dimensions, and carved that rectangle. -/
lemma Bin.insert_some {bin : Bin} {slice : Slice} {margin : ℚ} {b' : Bin}
    (hins : bin.insert slice margin = some b') :
    ∃ (rot : Bool) (rect : Rect),
      rect ∈ bin.freeRects ∧
      (if rot then slice.bounds.height + margin
        else slice.bounds.width + margin) ≤ rect.width ∧
      (if rot then slice.bounds.width + margin
        else slice.bounds.height + margin) ≤ rect.height ∧
      b' = { bin with
        items := bin.items ++ [⟨slice, rect.x, rect.y, rot, bin.sheetId⟩],
        freeRects := splitFreeRect bin.freeRects rect
          (if rot then slice.bounds.height + margin
            else slice.bounds.width + margin)
          (if rot then slice.bounds.width + margin
            else slice.bounds.height + margin) } := by
  simp only [Bin.insert] at hins
  cases hn : bin.score (slice.bounds.width + margin)
      (slice.bounds.height + margin) with
  | none =>
    cases hr : bin.score (slice.bounds.height + margin)
        (slice.bounds.width + margin) with
    | none => rw [hn, hr] at hins; simp at hins
    | some rtpl =>
      obtain ⟨rs1, rs2, rr⟩ := rtpl
      rw [hn, hr] at hins
      dsimp only at hins
      rw [Option.some.injEq] at hins
      refine ⟨true, rr, (Bin.score_some hr).1, ?_, ?_, ?_⟩
      · simpa using (Bin.score_some hr).2.1
      · simpa using (Bin.score_some hr).2.2
      · rw [← hins]
  | some ntpl =>
    obtain ⟨ns1, ns2, nr⟩ := ntpl
    cases hr : bin.score (slice.bounds.height + margin)
        (slice.bounds.width + margin) with
    | none =>
      rw [hn, hr] at hins
      dsimp only at hins
      rw [Option.some.injEq] at hins
      refine ⟨false, nr, (Bin.score_some hn).1, ?_, ?_, ?_⟩
      · simpa using (Bin.score_some hn).2.1
      · simpa using (Bin.score_some hn).2.2
      · rw [← hins]
    | some rtpl =>
      obtain ⟨rs1, rs2, rr⟩ := rtpl
      rw [hn, hr] at hins
      dsimp only at hins
      by_cases hcmp : rs1 < ns1 ∨ (rs1 = ns1 ∧ rs2 < ns2)
      · rw [if_pos hcmp] at hins
        dsimp only at hins
        rw [Option.some.injEq] at hins
        refine ⟨true, rr, (Bin.score_some hr).1, ?_, ?_, ?_⟩
        · simpa using (Bin.score_some hr).2.1
        · simpa using (Bin.score_some hr).2.2
        · rw [← hins]
      · rw [if_neg hcmp] at hins
        dsimp only at hins
        rw [Option.some.injEq] at hins
        refine ⟨false, nr, (Bin.score_some hn).1, ?_, ?_, ?_⟩
        · simpa using (Bin.score_some hn).2.1
        · simpa using (Bin.score_some hn).2.2
        · rw [← hins]

lemma Bin.insert_Wf {bin : Bin} {slice : Slice} {margin : ℚ} {b' : Bin}
    (h0w : 0 ≤ slice.bounds.width + margin)
    (h0h : 0 ≤ slice.bounds.height + margin)
    (hWf : bin.Wf margin) (hins : bin.insert slice margin = some b') :
    b'.Wf margin := by
  obtain ⟨rot, rect, hmem, hpw, hph, hb'⟩ := Bin.insert_some hins
  subst hb'
  have hpr : placedRect margin ⟨slice, rect.x, rect.y, rot, bin.sheetId⟩ =
      Rect.mk rect.x rect.y
        (if rot then slice.bounds.height + margin
          else slice.bounds.width + margin)
        (if rot then slice.bounds.width + margin
          else slice.bounds.height + margin) := by
    cases rot <;> simp [placedRect]
  have h0pw : 0 ≤ (if rot then slice.bounds.height + margin
      else slice.bounds.width + margin) := by
    cases rot <;> simpa
  have h0ph : 0 ≤ (if rot then slice.bounds.width + margin
      else slice.bounds.height + margin) := by
    cases rot <;> simpa
  unfold Bin.Wf Bin.allRects at hWf ⊢
  dsimp only at hWf ⊢
  rw [List.map_append, List.map_cons, List.map_nil, hpr]
  exact wf_update hmem h0pw h0ph hpw hph hWf.1 hWf.2

lemma freshBin_Wf (n : ℕ) (W H margin : ℚ) :
    (Bin.mk n W H [⟨0, 0, W, H⟩] []).Wf margin := by
  unfold Bin.Wf Bin.allRects
  dsimp only
  constructor
  · intro q hq
    simp only [List.map_nil, List.append_nil, List.mem_singleton] at hq
    subst hq
    exact Rect.inside_refl _
  · simp only [List.map_nil, List.append_nil]
    exact List.pairwise_singleton _ _

lemma tryBins_Wf {margin : ℚ} {slice : Slice}
    (h0w : 0 ≤ slice.bounds.width + margin)
    (h0h : 0 ≤ slice.bounds.height + margin) :
    ∀ {bins bins' : List Bin}, tryBins margin slice bins = some bins' →
      (∀ b ∈ bins, b.Wf margin) → ∀ b ∈ bins', b.Wf margin := by
  intro bins
  induction bins with
  | nil =>
    intro bins' htry
    simp [tryBins] at htry
  | cons b rest ih =>
    intro bins' htry hall b'' hb''
    simp only [tryBins] at htry
    cases hins : b.insert slice margin with
    | some bnew =>
      rw [hins] at htry
      simp only [Option.some.injEq] at htry
      subst htry
      rcases List.mem_cons.mp hb'' with hb'' | hb''
      · subst hb''
        exact Bin.insert_Wf h0w h0h (hall b (List.mem_cons_self _ _)) hins
      · exact hall b'' (List.mem_cons_of_mem _ hb'')
    | none =>
      rw [hins] at htry
      cases hrec : tryBins margin slice rest with
      | none => rw [hrec] at htry; simp at htry
      | some rest' =>
        rw [hrec] at htry
        simp only [Option.map_some', Option.some.injEq] at htry
        subst htry
        rcases List.mem_cons.mp hb'' with hb'' | hb''
        · subst hb''
          exact hall b'' (List.mem_cons_self _ _)
        · exact ih hrec (fun x hx => hall x (List.mem_cons_of_mem _ hx))
            b'' hb''

lemma packStep_Wf {W H margin : ℚ} {st : PackState} {slice : Slice}
    (h0w : 0 ≤ slice.bounds.width + margin)
    (h0h : 0 ≤ slice.bounds.height + margin)
    (hall : ∀ b ∈ st.bins, b.Wf margin) :
    ∀ b ∈ (packStep W H margin st slice).bins, b.Wf margin := by
  unfold packStep
  cases htry : tryBins margin slice st.bins with
  | some bins' =>
    dsimp only
    exact tryBins_Wf h0w h0h htry hall
  | none =>
    dsimp only
    cases hins : (Bin.mk st.bins.length W H [⟨0, 0, W, H⟩] []).insert
        slice margin with
    | some bnew =>
      dsimp only
      intro b hb
      rcases List.mem_append.mp hb with hb | hb
      · exact hall b hb
      · rw [List.mem_singleton] at hb
        subst hb
        exact Bin.insert_Wf h0w h0h (freshBin_Wf _ _ _ _) hins
    | none =>
      dsimp only
      intro b hb
      rcases List.mem_append.mp hb with hb | hb
      · exact hall b hb
      · rw [List.mem_singleton] at hb
        subst hb
        exact freshBin_Wf _ _ _ _

lemma packFold_Wf {W H margin : ℚ} :
    ∀ (l : List Slice) (st : PackState),
      (∀ s ∈ l, 0 ≤ s.bounds.width + margin ∧
        0 ≤ s.bounds.height + margin) →
      (∀ b ∈ st.bins, b.Wf margin) →
      ∀ b ∈ (l.foldl (packStep W H margin) st).bins, b.Wf margin := by
  intro l
  induction l with
  | nil =>
    intro st _ hall
    exact hall
  | cons s rest ih =>
    intro st hl hall
    rw [List.foldl_cons]
    exact ih _ (fun x hx => hl x (List.mem_cons_of_mem _ hx))
      (packStep_Wf (hl s (List.mem_cons_self _ _)).1
        (hl s (List.mem_cons_self _ _)).2 hall)

lemma sortedInsert_perm (lt : α → α → Bool) (x : α) :
    ∀ l : List α, (sortedInsert lt x l).Perm (x :: l) := by
  intro l
  induction l with
  | nil => exact List.Perm.refl _
  | cons y ys ih =>
    unfold sortedInsert
    split
    · exact (ih.cons y).trans (List.Perm.swap x y ys)
    · exact List.Perm.refl _

lemma stableSort_perm (lt : α → α → Bool) :
    ∀ l : List α, (stableSort lt l).Perm l := by
  intro l
  induction l with
  | nil => exact List.Perm.refl _
  | cons x xs ih =>
    unfold stableSort
    exact (sortedInsert_perm lt x (stableSort lt xs)).trans (ih.cons x)

/-- Every slice entering the packing loop of `nestSlices` passed the
validity filter, so its margin-inflated dimensions are nonnegative. -/
lemma sorted_mem_nonneg {strategy : Strategy} {slices : List Slice}
    {p : Slice → Bool} {s : Slice}
    (hs : s ∈ stableSort (sortLT strategy)
      (slices.filter fun x => validBounds x && p x)) :
    0 ≤ s.bounds.width + 5 ∧ 0 ≤ s.bounds.height + 5 := by
  have hmem := (stableSort_perm (sortLT strategy) _).mem_iff.mp hs
  have hval := (List.mem_filter.mp hmem).2
  rw [Bool.and_eq_true] at hval
  have := of_decide_eq_true hval.1
  constructor <;> linarith [this.1, this.2]

lemma perm_append_singleton_middle {α : Type} (X R : List α) (s : α) :
    ((X ++ [s]) ++ R).Perm ((X ++ R) ++ [s]) := by
  rw [List.append_assoc, List.append_assoc]
  exact List.Perm.append_left _ List.perm_append_comm

lemma binsSlices_append : ∀ l1 l2 : List Bin,
    binsSlices (l1 ++ l2) = binsSlices l1 ++ binsSlices l2 := by
  intro l1 l2
  induction l1 with
  | nil => rfl
  | cons b rest ih => simp [binsSlices, ih]

lemma Bin.insert_items {bin : Bin} {slice : Slice} {margin : ℚ} {b' : Bin}
    (hins : bin.insert slice margin = some b') :
    b'.items.map (fun p => p.slice) =
      bin.items.map (fun p => p.slice) ++ [slice] := by
  obtain ⟨rot, rect, _, _, _, hb'⟩ := Bin.insert_some hins
  subst hb'
  simp

lemma tryBins_perm {margin : ℚ} {slice : Slice} :
    ∀ {bins bins' : List Bin}, tryBins margin slice bins = some bins' →
      (binsSlices bins').Perm (binsSlices bins ++ [slice]) := by
  intro bins
  induction bins with
  | nil => intro bins' h; simp [tryBins] at h
  | cons b rest ih =>
    intro bins' htry
    simp only [tryBins] at htry
    cases hins : b.insert slice margin with
    | some bnew =>
      rw [hins] at htry
      rw [Option.some.injEq] at htry
      subst htry
      simp only [binsSlices]
      rw [Bin.insert_items hins]
      exact perm_append_singleton_middle _ _ _
    | none =>
      rw [hins] at htry
      cases hrec : tryBins margin slice rest with
      | none => rw [hrec] at htry; simp at htry
      | some rest' =>
        rw [hrec] at htry
        simp only [Option.map_some', Option.some.injEq] at htry
        subst htry
        simp only [binsSlices]
        rw [List.append_assoc]
        exact List.Perm.append_left _ (ih hrec)

lemma packStep_perm (W H margin : ℚ) (st : PackState) (slice : Slice) :
    (binsSlices (packStep W H margin st slice).bins ++
      (packStep W H margin st slice).oversized).Perm
    ((binsSlices st.bins ++ st.oversized) ++ [slice]) := by
  unfold packStep
  cases htry : tryBins margin slice st.bins with
  | some bins' =>
    dsimp only
    exact ((tryBins_perm htry).append_right st.oversized).trans
      (perm_append_singleton_middle _ _ _)
  | none =>
    dsimp only
    cases hins : (Bin.mk st.bins.length W H [⟨0, 0, W, H⟩] []).insert
        slice margin with
    | some bnew =>
      dsimp only
      rw [binsSlices_append]
      have hone : binsSlices [bnew] = [slice] := by
        simp only [binsSlices]
        rw [Bin.insert_items hins]
        simp
      rw [hone]
      exact perm_append_singleton_middle _ _ _
    | none =>
      dsimp only
      rw [binsSlices_append]
      have hone : binsSlices
          [Bin.mk st.bins.length W H [⟨0, 0, W, H⟩] []] = [] := by
        simp [binsSlices]
      rw [hone, List.append_nil, ← List.append_assoc]

lemma packFold_perm (W H margin : ℚ) :
    ∀ (l : List Slice) (st : PackState),
      (binsSlices ((l.foldl (packStep W H margin) st).bins) ++
        (l.foldl (packStep W H margin) st).oversized).Perm
      ((binsSlices st.bins ++ st.oversized) ++ l) := by
  intro l
  induction l with
  | nil =>
    intro st
    rw [List.foldl_nil, List.append_nil]
  | cons s rest ih =>
    intro st
    rw [List.foldl_cons]
    refine (ih (packStep W H margin st s)).trans ?_
    refine ((packStep_perm W H margin st s).append_right rest).trans ?_
    rw [List.append_assoc]
    exact List.Perm.refl _

lemma filter_partition {α : Type} (p q : α → Bool) :
    ∀ l : List α,
      (l.filter (fun x => p x && q x) ++
        l.filter (fun x => p x && !q x)).Perm (l.filter p) := by
  intro l
  induction l with
  | nil => simp
  | cons x xs ih =>
    by_cases hp : p x = true
    · by_cases hq : q x = true
      · simp only [List.filter_cons, hp, hq, Bool.and_self, Bool.not_true,
          Bool.and_true, Bool.and_false, if_true, if_false]
        exact ih.cons x
      · rw [Bool.not_eq_true] at hq
        simp only [List.filter_cons, hp, hq, Bool.not_false, Bool.and_true,
          Bool.and_false, if_true, if_false]
        exact List.perm_middle.trans (ih.cons x)
    · rw [Bool.not_eq_true] at hp
      simp only [List.filter_cons, hp, Bool.false_and, if_false]
      exact ih

lemma sheetsSlices_of_map : ∀ bins : List Bin,
    sheetsSlices (bins.map fun b =>
      Sheet.mk b.sheetId b.width b.height b.items) = binsSlices bins := by
  intro bins
  induction bins with
  | nil => rfl
  | cons b rest ih => simp only [List.map_cons, sheetsSlices, binsSlices, ih]

lemma mem_sheetsSlices {sheets : List Sheet} {it : PlacedSlice} {sh : Sheet}
    (hsh : sh ∈ sheets) (hit : it ∈ sh.items) :
    it.slice ∈ sheetsSlices sheets := by
  induction sheets with
  | nil => cases hsh
  | cons sh0 rest ih =>
    rcases List.mem_cons.mp hsh with h | h
    · subst h
      exact List.mem_append_left _ (List.mem_map_of_mem _ hit)
    · exact List.mem_append_right _ (ih h)

/-- The conservation property of `nestSlices`, shared by several claim
proofs: the underlying slices placed on the sheets together with the
oversized list are a permutation of the valid input slices. -/
lemma nestSlices_placed_oversized_perm (slices : List Slice)
    (material : MaterialSettings) (strategy : Strategy) :
    (sheetsSlices (nestSlices slices material strategy).sheets ++
      (nestSlices slices material strategy).oversized).Perm
    (slices.filter validBounds) := by
  simp only [nestSlices]
  rw [sheetsSlices_of_map]
  have hfold := packFold_perm (material.width * scaleFactor material.unit)
    (material.length * scaleFactor material.unit) 5
    (stableSort (sortLT strategy) (slices.filter fun s =>
      validBounds s && sliceFits s 5
        (material.width * scaleFactor material.unit)
        (material.length * scaleFactor material.unit)))
    ⟨[], []⟩
  rw [show binsSlices ([] : List Bin) ++ ([] : List Slice) = [] from rfl,
    List.nil_append] at hfold
  refine List.Perm.trans ?_
    (filter_partition validBounds
      (fun s => sliceFits s 5 (material.width * scaleFactor material.unit)
        (material.length * scaleFactor material.unit)) slices)
  refine List.Perm.trans ?_
    ((stableSort_perm (sortLT strategy) _).append_right _)
  refine List.Perm.trans ?_ (hfold.append_right _)
  rw [List.append_assoc]
  exact List.Perm.append_left _ List.perm_append_comm

lemma Bin.insert_isSome_of_score {bin : Bin} {slice : Slice} {margin : ℚ}
    (h : bin.score (slice.bounds.width + margin)
        (slice.bounds.height + margin) ≠ none ∨
      bin.score (slice.bounds.height + margin)
        (slice.bounds.width + margin) ≠ none) :
    ∃ b', bin.insert slice margin = some b' := by
  simp only [Bin.insert]
  cases hn : bin.score (slice.bounds.width + margin)
      (slice.bounds.height + margin) with
  | none =>
    cases hr : bin.score (slice.bounds.height + margin)
        (slice.bounds.width + margin) with
    | none =>
      exfalso
      rcases h with h | h <;> exact h (by assumption)
    | some t =>
      obtain ⟨a, b, c⟩ := t
      exact ⟨_, rfl⟩
  | some t =>
    obtain ⟨a, b, c⟩ := t
    cases hr : bin.score (slice.bounds.height + margin)
        (slice.bounds.width + margin) with
    | none => exact ⟨_, rfl⟩
    | some t2 =>
      obtain ⟨a2, b2, c2⟩ := t2
      dsimp only
      by_cases hcmp : a2 < a ∨ (a2 = a ∧ b2 < b)
      · rw [if_pos hcmp]
        exact ⟨_, rfl⟩
      · rw [if_neg hcmp]
        exact ⟨_, rfl⟩

lemma freshBin_score_isSome {n : ℕ} {W H w h : ℚ} (hw : w ≤ W)
    (hh : h ≤ H) :
    (Bin.mk n W H [⟨0, 0, W, H⟩] []).score w h ≠ none := by
  simp only [Bin.score, List.foldl_cons, List.foldl_nil, scoreStep]
  rw [if_pos (show W ≥ w ∧ H ≥ h from ⟨hw, hh⟩)]
  simp

lemma freshBin_insert_isSome {n : ℕ} {W H margin : ℚ} {slice : Slice}
    (hfit : sliceFits slice margin W H = true) :
    ∃ b', (Bin.mk n W H [⟨0, 0, W, H⟩] []).insert slice margin = some b' := by
  rw [sliceFits, Bool.or_eq_true] at hfit
  apply Bin.insert_isSome_of_score
  rcases hfit with hfit | hfit
  · simp only [fitsNormal, decide_eq_true_eq] at hfit
    exact Or.inl (freshBin_score_isSome hfit.1 hfit.2)
  · simp only [fitsRotated, decide_eq_true_eq] at hfit
    exact Or.inr (freshBin_score_isSome hfit.1 hfit.2)

lemma packFold_no_oversized {W H margin : ℚ} :
    ∀ (l : List Slice) (st : PackState),
      (∀ s ∈ l, sliceFits s margin W H = true) →
      (l.foldl (packStep W H margin) st).oversized = st.oversized := by
  intro l
  induction l with
  | nil => intro st _; rfl
  | cons s rest ih =>
    intro st hl
    rw [List.foldl_cons, ih _ (fun x hx => hl x (List.mem_cons_of_mem _ hx))]
    unfold packStep
    cases htry : tryBins margin s st.bins with
    | some bins' => rfl
    | none =>
      obtain ⟨b', hb'⟩ :=
        freshBin_insert_isSome (n := st.bins.length) (W := W) (H := H)
          (hl s (List.mem_cons_self _ _))
      simp only [hb']

/-- Packing never reaches the "Logic Error" fallback: every slice the
pre-check classified fittable does insert into a fresh empty bin, so the
output `oversized` list is exactly the pre-check one. -/
lemma nestSlices_oversized_eq (slices : List Slice)
    (material : MaterialSettings) (strategy : Strategy) :
    (nestSlices slices material strategy).oversized =
      slices.filter (fun s => validBounds s &&
        !sliceFits s 5 (material.width * scaleFactor material.unit)
          (material.length * scaleFactor material.unit)) := by
  simp only [nestSlices]
  rw [packFold_no_oversized]
  · simp
  · intro s hs
    have hmem := (stableSort_perm (sortLT strategy) _).mem_iff.mp hs
    exact ((Bool.and_eq_true _ _).mp (List.mem_filter.mp hmem).2).2

/-! ## Claim theorems -/

/-- **C1.**  Every placed slice lies within its sheet: the
margin-inflated (margin = 5) placed rectangle — `(w+5) × (h+5)` at the
placement origin, sides swapped when the placement is rotated — is
contained in `[0, sheetWidth] × [0, sheetHeight]`. -/
theorem nestSlices_placed_within_sheet (slices : List Slice)
    (material : MaterialSettings) (strategy : Strategy) :
    ∀ sh ∈ (nestSlices slices material strategy).sheets,
      ∀ it ∈ sh.items,
        (placedRect 5 it).inside ⟨0, 0, sh.width, sh.height⟩ := by
  intro sh hsh it hit
  simp only [nestSlices] at hsh
  rw [List.mem_map] at hsh
  obtain ⟨b, hb, rfl⟩ := hsh
  dsimp only at hit ⊢
  have hWf : b.Wf 5 := by
    refine packFold_Wf _ _ (fun s hs => sorted_mem_nonneg hs) ?_ b hb
    intro b' hb'
    simp at hb'
  exact hWf.1 (placedRect 5 it)
    (List.mem_append_right _ (List.mem_map_of_mem _ hit))

theorem nestSlices_placed_within_sheet_witness :
    Sheet.mk 0 120 120 [⟨squareSlice 1, 0, 0, false, 0⟩] ∈
      (nestSlices [squareSlice 1] ⟨120, 120, 3, .mm⟩ .optimized).sheets ∧
    (⟨squareSlice 1, 0, 0, false, 0⟩ : PlacedSlice) ∈
      (Sheet.mk 0 120 120 [⟨squareSlice 1, 0, 0, false, 0⟩]).items ∧
    (placedRect 5 ⟨squareSlice 1, 0, 0, false, 0⟩).inside
      ⟨0, 0, (Sheet.mk 0 120 120 [⟨squareSlice 1, 0, 0, false, 0⟩]).width,
        (Sheet.mk 0 120 120 [⟨squareSlice 1, 0, 0, false, 0⟩]).height⟩ :=
  ⟨by decide!, by decide!,
    nestSlices_placed_within_sheet [squareSlice 1] ⟨120, 120, 3, .mm⟩
      .optimized _ (by decide!) _ (by decide!)⟩

/-- **C10.**  On every sheet produced by `nestSlices`, the
margin-inflated placed rectangles of the placed slices are pairwise
interior-disjoint. -/
theorem nestSlices_no_overlap (slices : List Slice)
    (material : MaterialSettings) (strategy : Strategy) :
    ∀ sh ∈ (nestSlices slices material strategy).sheets,
      (sh.items.map (placedRect 5)).Pairwise Rect.disjoint := by
  intro sh hsh
  simp only [nestSlices] at hsh
  rw [List.mem_map] at hsh
  obtain ⟨b, hb, rfl⟩ := hsh
  dsimp only
  have hWf : b.Wf 5 := by
    refine packFold_Wf _ _ (fun s hs => sorted_mem_nonneg hs) ?_ b hb
    intro b' hb'
    simp at hb'
  exact hWf.2.sublist (List.sublist_append_right _ _)

theorem nestSlices_no_overlap_witness :
    Sheet.mk 0 120 120 [⟨squareSlice 1, 0, 0, false, 0⟩] ∈
      (nestSlices [squareSlice 1] ⟨120, 120, 3, .mm⟩ .optimized).sheets ∧
    ((Sheet.mk 0 120 120
        [⟨squareSlice 1, 0, 0, false, 0⟩]).items.map
          (placedRect 5)).Pairwise Rect.disjoint :=
  ⟨by decide!,
    nestSlices_no_overlap [squareSlice 1] ⟨120, 120, 3, .mm⟩ .optimized _
      (by decide!)⟩

/-- **C9.**  `nestSlices` conserves its valid inputs: the multiset of
slices underlying the placed items of all sheets, together with the
oversized list, is exactly the multiset of input slices with positive
bounds — nothing is duplicated or lost (this covers the fallback path
where a fittable slice failing in a fresh bin would be routed to
`oversized`). -/
theorem nestSlices_conserves_valid_slices (slices : List Slice)
    (material : MaterialSettings) (strategy : Strategy) :
    (sheetsSlices (nestSlices slices material strategy).sheets ++
      (nestSlices slices material strategy).oversized).Perm
    (slices.filter validBounds) :=
  nestSlices_placed_oversized_perm slices material strategy

/-- **C5.**  The pre-classification of `nestSlices`: a slice with
non-positive bounds (the non-finite clause of the source's
`Number.isFinite` guard is vacuous in the exact-rational domain) is
excluded from both the sheets and the oversized output; any other slice
lands in `oversized` exactly when neither the normal nor the rotated
orientation fits the sheet with margin 5. -/
theorem nestSlices_classification (slices : List Slice)
    (material : MaterialSettings) (strategy : Strategy) (s : Slice)
    (hmem : s ∈ slices) :
    (¬(0 < s.bounds.width ∧ 0 < s.bounds.height) →
      s ∉ (nestSlices slices material strategy).oversized ∧
      ∀ sh ∈ (nestSlices slices material strategy).sheets,
        ∀ it ∈ sh.items, it.slice ≠ s) ∧
    (0 < s.bounds.width → 0 < s.bounds.height →
      (s ∈ (nestSlices slices material strategy).oversized ↔
        ¬(s.bounds.width + 5 ≤
            material.width * scaleFactor material.unit ∧
          s.bounds.height + 5 ≤
            material.length * scaleFactor material.unit) ∧
        ¬(s.bounds.height + 5 ≤
            material.width * scaleFactor material.unit ∧
          s.bounds.width + 5 ≤
            material.length * scaleFactor material.unit))) := by
  constructor
  · intro hbad
    constructor
    · intro hov
      rw [nestSlices_oversized_eq] at hov
      have hval := (List.mem_filter.mp hov).2
      rw [Bool.and_eq_true] at hval
      exact hbad (of_decide_eq_true hval.1)
    · intro sh hsh it hit heq
      have h1 : it.slice ∈
          sheetsSlices (nestSlices slices material strategy).sheets :=
        mem_sheetsSlices hsh hit
      have h2 := nestSlices_placed_oversized_perm slices material strategy
      have h3 : it.slice ∈ slices.filter validBounds :=
        h2.mem_iff.mp (List.mem_append_left _ h1)
      have h4 := (List.mem_filter.mp h3).2
      rw [heq] at h4
      exact hbad (of_decide_eq_true h4)
  · intro hw hh
    rw [nestSlices_oversized_eq, List.mem_filter]
    simp only [Bool.and_eq_true, Bool.not_eq_true', Bool.or_eq_false_iff,
      sliceFits, fitsNormal, fitsRotated, validBounds, decide_eq_true_eq,
      decide_eq_false_iff_not]
    constructor
    · intro hin
      exact hin.2.2
    · intro hnofit
      exact ⟨hmem, ⟨hw, hh⟩, hnofit⟩

theorem nestSlices_classification_witness :
    squareSlice 1 ∈ [squareSlice 1] ∧
    ((¬(0 < (squareSlice 1).bounds.width ∧
        0 < (squareSlice 1).bounds.height) →
      squareSlice 1 ∉
        (nestSlices [squareSlice 1] ⟨30, 30, 3, .mm⟩ .optimized).oversized ∧
      ∀ sh ∈ (nestSlices [squareSlice 1] ⟨30, 30, 3, .mm⟩
          .optimized).sheets,
        ∀ it ∈ sh.items, it.slice ≠ squareSlice 1) ∧
    (0 < (squareSlice 1).bounds.width →
      0 < (squareSlice 1).bounds.height →
      (squareSlice 1 ∈
          (nestSlices [squareSlice 1] ⟨30, 30, 3, .mm⟩
            .optimized).oversized ↔
        ¬((squareSlice 1).bounds.width + 5 ≤
            (30 : ℚ) * scaleFactor LengthUnit.mm ∧
          (squareSlice 1).bounds.height + 5 ≤
            (30 : ℚ) * scaleFactor LengthUnit.mm) ∧
        ¬((squareSlice 1).bounds.height + 5 ≤
            (30 : ℚ) * scaleFactor LengthUnit.mm ∧
          (squareSlice 1).bounds.width + 5 ≤
            (30 : ℚ) * scaleFactor LengthUnit.mm)))) :=
  ⟨List.mem_singleton.mpr rfl,
    nestSlices_classification [squareSlice 1] ⟨30, 30, 3, .mm⟩ .optimized
      (squareSlice 1) (List.mem_singleton.mpr rfl)⟩

/-- **C8.**  A non-positive requested slice count, or a non-positive
extent of the mesh on the chosen axis (flat or empty geometry), makes
`sliceGeometry` return the empty list without emitting any slice. -/
theorem sliceGeometry_invalid_empty (positions : List Vec3) (axis : Axis)
    (numberOfSlices : ℤ)
    (h : numberOfSlices ≤ 0 ∨
      axisMax axis positions - axisMin axis positions ≤ 0) :
    sliceGeometry positions axis numberOfSlices = [] := by
  simp only [sliceGeometry]
  rw [if_pos h.symm]

theorem sliceGeometry_invalid_empty_witness :
    ((0 : ℤ) ≤ 0 ∨ axisMax Axis.z ([] : List Vec3) -
      axisMin Axis.z ([] : List Vec3) ≤ 0) ∧
    sliceGeometry [] Axis.z 0 = [] :=
  ⟨Or.inl (by decide!),
    sliceGeometry_invalid_empty [] Axis.z 0 (Or.inl (by decide!))⟩

/-- **C4.**  For a mesh with positive extent on the chosen axis and a
positive requested count, every produced slice sits at one of the
`count` interior levels `min + (i+1)·range/(count+1)` — hence strictly
between the extent's min and max — at most `count` slices are produced,
and no slice with an empty segment list is emitted. -/
theorem sliceGeometry_levels (positions : List Vec3) (axis : Axis)
    (numberOfSlices : ℤ) (hc : 0 < numberOfSlices)
    (hr : axisMin axis positions < axisMax axis positions) :
    (∀ s ∈ sliceGeometry positions axis numberOfSlices,
      (∃ i < numberOfSlices.toNat,
        s.zHeight = axisMin axis positions + ((i : ℚ) + 1) *
          ((axisMax axis positions - axisMin axis positions) /
            ((numberOfSlices : ℚ) + 1))) ∧
      axisMin axis positions < s.zHeight ∧
      s.zHeight < axisMax axis positions ∧
      s.segments ≠ []) ∧
    (sliceGeometry positions axis numberOfSlices).length ≤
      numberOfSlices.toNat := by
  have hguard : ¬(axisMax axis positions - axisMin axis positions ≤ 0 ∨
      numberOfSlices ≤ 0) := by
    push_neg
    exact ⟨by linarith, hc⟩
  have hcq : (1 : ℚ) ≤ (numberOfSlices : ℚ) := by exact_mod_cast hc
  have hstep : 0 < (axisMax axis positions - axisMin axis positions) /
      ((numberOfSlices : ℚ) + 1) := by
    apply div_pos (by linarith) (by linarith)
  constructor
  · intro s hs
    simp only [sliceGeometry] at hs
    rw [if_neg hguard] at hs
    simp only [List.mem_filterMap, List.mem_range] at hs
    obtain ⟨i, hi, hfi⟩ := hs
    obtain ⟨hz, hseg⟩ := sliceAtLevel_some hfi
    have hi1 : ((i : ℚ) + 1) ≤ (numberOfSlices : ℚ) := by
      have h1 : (i : ℤ) + 1 ≤ numberOfSlices := by
        omega
      exact_mod_cast h1
    have hpos : (0 : ℚ) < (i : ℚ) + 1 := by positivity
    have hup : ((i : ℚ) + 1) *
        ((axisMax axis positions - axisMin axis positions) /
          ((numberOfSlices : ℚ) + 1)) <
        axisMax axis positions - axisMin axis positions := by
      have hlt : ((i : ℚ) + 1) *
          ((axisMax axis positions - axisMin axis positions) /
            ((numberOfSlices : ℚ) + 1)) <
          ((numberOfSlices : ℚ) + 1) *
            ((axisMax axis positions - axisMin axis positions) /
              ((numberOfSlices : ℚ) + 1)) := by
        apply mul_lt_mul_of_pos_right (by linarith) hstep
      have heq : ((numberOfSlices : ℚ) + 1) *
          ((axisMax axis positions - axisMin axis positions) /
            ((numberOfSlices : ℚ) + 1)) =
          axisMax axis positions - axisMin axis positions := by
        field_simp
      linarith [heq ▸ hlt]
    refine ⟨⟨i, hi, hz⟩, ?_, ?_, hseg⟩
    · rw [hz]
      nlinarith
    · rw [hz]
      linarith
  · simp only [sliceGeometry]
    rw [if_neg hguard]
    calc ((List.range numberOfSlices.toNat).filterMap _).length
        ≤ (List.range numberOfSlices.toNat).length :=
          List.length_filterMap_le _ _
      _ = numberOfSlices.toNat := List.length_range _

theorem sliceGeometry_levels_witness :
    (0 : ℤ) < 1 ∧
    axisMin Axis.z [(⟨0, 0, 0⟩ : Vec3), ⟨10, 0, 60⟩, ⟨0, 10, 30⟩] <
      axisMax Axis.z [(⟨0, 0, 0⟩ : Vec3), ⟨10, 0, 60⟩, ⟨0, 10, 30⟩] ∧
    ((∀ s ∈ sliceGeometry [(⟨0, 0, 0⟩ : Vec3), ⟨10, 0, 60⟩, ⟨0, 10, 30⟩]
        Axis.z 1,
      (∃ i < (1 : ℤ).toNat,
        s.zHeight = axisMin Axis.z
            [(⟨0, 0, 0⟩ : Vec3), ⟨10, 0, 60⟩, ⟨0, 10, 30⟩] +
          ((i : ℚ) + 1) *
            ((axisMax Axis.z [(⟨0, 0, 0⟩ : Vec3), ⟨10, 0, 60⟩, ⟨0, 10, 30⟩] -
              axisMin Axis.z
                [(⟨0, 0, 0⟩ : Vec3), ⟨10, 0, 60⟩, ⟨0, 10, 30⟩]) /
              (((1 : ℤ) : ℚ) + 1))) ∧
      axisMin Axis.z [(⟨0, 0, 0⟩ : Vec3), ⟨10, 0, 60⟩, ⟨0, 10, 30⟩] <
        s.zHeight ∧
      s.zHeight <
        axisMax Axis.z [(⟨0, 0, 0⟩ : Vec3), ⟨10, 0, 60⟩, ⟨0, 10, 30⟩] ∧
      s.segments ≠ []) ∧
    (sliceGeometry [(⟨0, 0, 0⟩ : Vec3), ⟨10, 0, 60⟩, ⟨0, 10, 30⟩]
        Axis.z 1).length ≤ (1 : ℤ).toNat) :=
  ⟨by decide!, by decide!,
    sliceGeometry_levels [⟨0, 0, 0⟩, ⟨10, 0, 60⟩, ⟨0, 10, 30⟩] Axis.z 1
      (by decide!) (by decide!)⟩

/-- **C2, counterexample.**  Slicing the 100×100×100 cube along `z` with
`count = 4` yields a slice whose (single) closed contour does *not* have
4 points and *does* end in a duplicate of its first point: `linkSegments`
appends the far endpoint of the closing segment before it tests for loop
closure, and each cube face is two triangles, so every side of the square
cross-section arrives as two collinear segments. -/
theorem cube_contour_closing_point_duplicated :
    ∃ s ∈ sliceGeometry cubePositions Axis.z 4,
      ∃ c ∈ s.contours, c.head? = c.getLast? ∧ c.length ≠ 4 := by
  decide!

/-- **C2, amended.**  When the contour linker closes a loop it appends
the closing point once more, so a closed contour's last point duplicates
its first; slicing the 100×100×100 axis-aligned cube with `count = 4`
yields exactly 4 slices at the interior 5-way division heights
20, 40, 60, 80, each with a single closed contour of 9 points (8 points
on the side-100 square perimeter followed by a repeat of the first
point), with bounds the full side-100 square. -/
theorem cube_slices_linked_contours :
    (sliceGeometry cubePositions Axis.z 4).length = 4 ∧
    (sliceGeometry cubePositions Axis.z 4).map (fun s => s.zHeight) =
      [20, 40, 60, 80] ∧
    ∀ s ∈ sliceGeometry cubePositions Axis.z 4,
      s.contours.length = 1 ∧
      s.bounds.width = 100 ∧ s.bounds.height = 100 ∧
      ∀ c ∈ s.contours,
        c.length = 9 ∧ c.head? = c.getLast? ∧
        ∀ p ∈ c, onCubePerimeter s.zHeight p = true := by
  decide!

/-- **C3, counterexample.**  A slice of width 50 and height 100 with both
sheet limits 40: both local dimensions exceed their limits and the longer
one is `v` (height), yet `splitSlice` selects `u`, because it tests
`width > maxW` first and never compares the two dimensions in that
case. -/
theorem splitChoice_both_exceed_picks_width :
    (50 : ℚ) > 40 ∧ (100 : ℚ) > 40 ∧ (100 : ℚ) > 50 ∧
    (splitChoice ⟨0, 0, 50, 100, 50, 100⟩ 40 40).1 ≠ SplitAxis.v := by
  decide!

/-- **C3, amended.**  The split dimension is chosen as: `u` (width)
whenever width exceeds its sheet limit — even if both dimensions exceed
and height is longer — else `v` (height) when height exceeds its limit;
when neither exceeds, the slice's longer local dimension (ties to `v`);
the split position is always the midpoint of the chosen dimension. -/
theorem splitChoice_selection (b : SliceBounds) (maxW maxH : ℚ) :
    (b.width > maxW →
      splitChoice b maxW maxH = (.u, b.minX + b.width / 2)) ∧
    (¬b.width > maxW → b.height > maxH →
      splitChoice b maxW maxH = (.v, b.minY + b.height / 2)) ∧
    (¬b.width > maxW → ¬b.height > maxH → b.width > b.height →
      splitChoice b maxW maxH = (.u, b.minX + b.width / 2)) ∧
    (¬b.width > maxW → ¬b.height > maxH → ¬b.width > b.height →
      splitChoice b maxW maxH = (.v, b.minY + b.height / 2)) := by
  unfold splitChoice
  refine ⟨fun h1 => ?_, fun h1 h2 => ?_, fun h1 h2 h3 => ?_,
    fun h1 h2 h3 => ?_⟩
  · rw [if_pos h1]
  · rw [if_neg h1, if_pos h2]
  · rw [if_neg h1, if_neg h2, if_pos h3]
  · rw [if_neg h1, if_neg h2, if_neg h3]

theorem splitChoice_selection_witness :
    ¬(30 : ℚ) > 40 ∧ ¬(20 : ℚ) > 40 ∧ (30 : ℚ) > 20 ∧
    splitChoice ⟨0, 0, 30, 20, 30, 20⟩ 40 40 = (.u, 15) := by
  refine ⟨by decide!, by decide!, by decide!, ?_⟩
  have h := (splitChoice_selection ⟨0, 0, 30, 20, 30, 20⟩ 40 40).2.2.1
    (by decide!) (by decide!) (by decide!)
  rw [h]
  norm_num

/-- **C6.**  `nestSlices` is deterministic: it is a pure function of the
slice list, the material settings and the strategy, so two runs on
identical inputs produce identical sheets (same count, same assignment,
same positions and rotations) and identical oversized lists. -/
theorem nestSlices_deterministic (s₁ s₂ : List Slice)
    (m₁ m₂ : MaterialSettings) (st₁ st₂ : Strategy)
    (hs : s₁ = s₂) (hm : m₁ = m₂) (hst : st₁ = st₂) :
    (nestSlices s₁ m₁ st₁).sheets = (nestSlices s₂ m₂ st₂).sheets ∧
    (nestSlices s₁ m₁ st₁).oversized = (nestSlices s₂ m₂ st₂).oversized := by
  subst hs hm hst
  exact ⟨rfl, rfl⟩

theorem nestSlices_deterministic_witness :
    (nestSlices [squareSlice 1] ⟨120, 120, 3, .mm⟩ .optimized).sheets =
      (nestSlices [squareSlice 1] ⟨120, 120, 3, .mm⟩ .optimized).sheets ∧
    (nestSlices [squareSlice 1] ⟨120, 120, 3, .mm⟩ .optimized).oversized =
      (nestSlices [squareSlice 1] ⟨120, 120, 3, .mm⟩ .optimized).oversized :=
  nestSlices_deterministic [squareSlice 1] [squareSlice 1]
    ⟨120, 120, 3, .mm⟩ ⟨120, 120, 3, .mm⟩ .optimized .optimized rfl rfl rfl

/-- **C7.**  Nesting five 50×50 squares onto a 120×120 mm sheet with the
"optimized" (area-descending) strategy produces exactly two sheets, with
4 slices on sheet 0 and 1 slice on sheet 1, and no oversized slices. -/
theorem nestSlices_five_squares :
    (nestSlices [squareSlice 1, squareSlice 2, squareSlice 3,
        squareSlice 4, squareSlice 5] ⟨120, 120, 3, .mm⟩
        .optimized).sheets.length = 2 ∧
    (nestSlices [squareSlice 1, squareSlice 2, squareSlice 3,
        squareSlice 4, squareSlice 5] ⟨120, 120, 3, .mm⟩
        .optimized).sheets.map (fun sh => (sh.id, sh.items.length)) =
      [(0, 4), (1, 1)] ∧
    (nestSlices [squareSlice 1, squareSlice 2, squareSlice 3,
        squareSlice 4, squareSlice 5] ⟨120, 120, 3, .mm⟩
        .optimized).oversized = [] := by
  decide!

end Forge
